import Mathlib

/-!
Verification of the curve resampling / aggregation logic of
`src/ultralytics/utils/callbacks/wb.py` (functions `plot_curve_wandb`,
`create_custom_wandb_metric`, `_log_plots`), shallowly embedded over `ℚ`.

The numeric core of the repository is:

  xs_new = np.linspace(xs[0], xs[-1], num_xs)
  ys_log = np.interp(xs_new, xs, np.mean(ys, axis=0))
  ... per-class: np.interp(xs_new, xs, y)

We embed `np.linspace`, `np.interp` (1-d, increasing sample points, clamped
extrapolation), `np.mean(·, axis=0)`, the body of `plot_curve_wandb` (the
spec's `aggregate`), the `np.interp`-on-one-curve operation (the spec's
`resample`), the 3-decimal rounding done by `DataFrame.round(3)` in
`create_custom_wandb_metric` (numpy/pandas round half to even), and the
timestamp dedup cache of `_log_plots`.
-/

/-- Python-level errors that the code can raise while building the log
payload: `IndexError` from `xs[0]` / `names[i]`, `ValueError` from
`np.linspace` (negative sample count) and `np.interp` (empty or
mismatched-length sample arrays). -/
inductive NpError where
  | indexError : NpError
  | valueError : NpError
deriving DecidableEq, Repr

instance {ε α : Type} [DecidableEq ε] [DecidableEq α] : DecidableEq (Except ε α) := fun a b =>
  match a, b with
  | .error x, .error y => decidable_of_iff (x = y) (by simp)
  | .error _, .ok _ => isFalse (fun h => Except.noConfusion h)
  | .ok _, .error _ => isFalse (fun h => Except.noConfusion h)
  | .ok x, .ok y => decidable_of_iff (x = y) (by simp)

/-- `np.linspace a b n`: `n` evenly spaced values; for `n ≥ 2` the step is
`(b-a)/(n-1)` and the endpoint is included; `np.linspace a b 1 = [a]`;
`np.linspace a b 0 = []`. -/
def linspace (a b : ℚ) (n : ℕ) : List ℚ :=
  if n = 0 then []
  else if n = 1 then [a]
  else (List.range n).map (fun i : ℕ => a + (b - a) * (i : ℚ) / ((n : ℚ) - 1))

/-- One-point evaluation of `np.interp` on a curve given as `(x, y)` pairs
with increasing x: clamped at both ends, linear interpolation on each
segment `[x0, x1]`.  On the empty curve we return `0`; callers
(`resample`, `plot_curve_wandb`) guard that case with an error, mirroring
the `ValueError` / `IndexError` that numpy raises. -/
def np_interp1 : List (ℚ × ℚ) → ℚ → ℚ
  | [], _ => 0
  | (x0, y0) :: tail, x =>
    match tail with
    | [] => y0
    | (x1, y1) :: _ =>
      if x ≤ x0 then y0
      else if x ≤ x1 then y0 + (y1 - y0) * (x - x0) / (x1 - x0)
      else np_interp1 tail x

/-- The spec's `resample(curve, grid)`: `np.interp(grid, xs, ys)` on one
curve.  numpy raises `ValueError` when the array of sample points is
empty; an empty `grid` simply yields an empty result. -/
def resample (curve : List (ℚ × ℚ)) (grid : List ℚ) : Except NpError (List ℚ) :=
  if curve = [] then .error .valueError
  else .ok (grid.map (np_interp1 curve))

/-- Pointwise sum of the rows of a `C × N` matrix (the summation inside
`np.mean(ys, axis=0)`). -/
def sumRows : List (List ℚ) → List ℚ
  | [] => []
  | [r] => r
  | r :: rs => List.zipWith (· + ·) r (sumRows rs)

/-- `np.mean(ys, axis=0)` on a rectangular `C × N` array: column sums
divided by the number of rows. -/
def npMeanAxis0 (ys : List (List ℚ)) : List ℚ :=
  (sumRows ys).map (fun v => v / (ys.length : ℚ))

/-- The shared grid built on line 77 of `wb.py`:
`xs_new = np.linspace(xs[0], xs[-1], num_xs)`. -/
def xs_new (xs : List ℚ) (num_xs : ℕ) : List ℚ :=
  linspace (xs.headD 0) (xs.getLastD 0) num_xs

/-- The body of `plot_curve_wandb` (the spec's `aggregate`), up to the
`wb.log` side effect: it returns the three parallel lists
`(xs_log, ys_log, classes)` passed to `create_custom_wandb_metric`.
Error cases, in evaluation order of the Python source:
`xs[0]` on an empty array (`IndexError`); `np.linspace` with a negative
`num_xs` (`ValueError`); `np.interp` with a y-row whose length differs
from `len(xs)` (`ValueError`); `names[i]` with too few names when
`only_mean` is false (`IndexError`).  `np.mean` on an empty class
axis is outside the model (claims are about non-empty families). -/
def plot_curve_wandb (xs : List ℚ) (ys : List (List ℚ)) (names : List String)
    (num_xs : ℤ) (only_mean : Bool) :
    Except NpError (List ℚ × List ℚ × List String) :=
  if xs = [] then .error .indexError
  else if num_xs < 0 then .error .valueError
  else if ys.any (fun r => r.length ≠ xs.length) then .error .valueError
  else if only_mean = false ∧ names.length < ys.length then .error .indexError
  else
    let g := xs_new xs num_xs.toNat
    let xs_log := g
    let ys_log := g.map (np_interp1 (xs.zip (npMeanAxis0 ys)))
    let classes := List.replicate g.length "mean"
    if only_mean then .ok (xs_log, ys_log, classes)
    else
      .ok (xs_log ++ (List.replicate ys.length g).flatten,
           ys_log ++ (ys.map (fun y => g.map (np_interp1 (xs.zip y)))).flatten,
           classes ++ ((names.take ys.length).map
             (fun n => List.replicate g.length n)).flatten)

theorem np_interp1_nil (x : ℚ) : np_interp1 [] x = 0 := rfl

theorem np_interp1_single (x0 y0 x : ℚ) : np_interp1 [(x0, y0)] x = y0 := rfl

theorem np_interp1_cons2 (x0 y0 x1 y1 : ℚ) (t : List (ℚ × ℚ)) (x : ℚ) :
    np_interp1 ((x0, y0) :: (x1, y1) :: t) x =
      if x ≤ x0 then y0
      else if x ≤ x1 then y0 + (y1 - y0) * (x - x0) / (x1 - x0)
      else np_interp1 ((x1, y1) :: t) x := rfl

/-- In a curve whose x-coordinates form a strictly increasing chain, the
head's x is strictly below the x of every later point. -/
theorem fst_head_lt_of_mem (c : List (ℚ × ℚ)) :
    ∀ q p : ℚ × ℚ, List.Chain' (· < ·) ((q :: c).map Prod.fst) → p ∈ c →
      q.1 < p.1 := by
  induction c with
  | nil =>
    intro q p _ hp
    cases hp
  | cons r c' ih =>
    intro q p hmono hp
    rcases List.mem_cons.mp hp with h | h
    · subst h
      exact (List.chain'_cons.mp hmono).1
    · exact lt_trans (List.chain'_cons.mp hmono).1 (ih r p (List.chain'_cons.mp hmono).2 h)

/-- In a curve whose x-coordinates strictly increase, the head's x is at
most the last point's x. -/
theorem fst_head_le_getLastD (p : ℚ × ℚ) (c : List (ℚ × ℚ))
    (hmono : List.Chain' (· < ·) ((p :: c).map Prod.fst)) :
    p.1 ≤ ((p :: c).getLastD (0, 0)).1 := by
  induction c generalizing p with
  | nil => simp
  | cons q c' ih =>
    have h1 : p.1 < q.1 := (List.chain'_cons.mp hmono).1
    have h2 := ih q (List.chain'_cons.mp hmono).2
    simpa using le_of_lt (lt_of_lt_of_le h1 (by simpa using h2))

/-- Clamping below the curve's domain: any query at or below the first
x-coordinate evaluates to the first y-coordinate. -/
theorem np_interp1_clamp_left (c : List (ℚ × ℚ)) (hne : c ≠ []) (x : ℚ)
    (hx : x ≤ (c.headD (0, 0)).1) :
    np_interp1 c x = (c.headD (0, 0)).2 := by
  match c with
  | [] => exact absurd rfl hne
  | [(x0, y0)] => simp [np_interp1_single]
  | (x0, y0) :: (x1, y1) :: t =>
    simp only [List.headD_cons] at hx
    simp [np_interp1_cons2, hx]

/-- Clamping above the curve's domain: any query at or above the last
x-coordinate evaluates to the last y-coordinate (needs increasing x). -/
theorem np_interp1_clamp_right (c : List (ℚ × ℚ))
    (hmono : List.Chain' (· < ·) (c.map Prod.fst)) (x : ℚ)
    (hx : (c.getLastD (0, 0)).1 ≤ x) :
    np_interp1 c x = (c.getLastD (0, 0)).2 := by
  induction c with
  | nil => simp [np_interp1_nil]
  | cons p c' ih =>
    match p, c' with
    | (x0, y0), [] => simp [np_interp1_single]
    | (x0, y0), (x1, y1) :: t =>
      have hchain : List.Chain' (· < ·) (((x1, y1) :: t).map Prod.fst) :=
        (List.chain'_cons.mp hmono).2
      have h01 : x0 < x1 := (List.chain'_cons.mp hmono).1
      have hlast : x1 ≤ (((x1, y1) :: t).getLastD (0, 0)).1 :=
        fst_head_le_getLastD (x1, y1) t hchain
      have hxl : (((x1, y1) :: t).getLastD (0, 0)).1 ≤ x := by
        simpa using hx
      have hx1 : x1 ≤ x := le_trans hlast hxl
      rw [np_interp1_cons2, if_neg (by linarith : ¬ x ≤ x0)]
      by_cases hxx1 : x ≤ x1
      · have hx1e : x = x1 := le_antisymm hxx1 hx1
        have hlx : (((x1, y1) :: t).getLastD (0, 0)).1 = x1 :=
          le_antisymm (hx1e ▸ hxl) hlast
        cases t with
        | nil =>
          rw [if_pos hxx1]
          show y0 + (y1 - y0) * (x - x0) / (x1 - x0) = y1
          rw [hx1e]
          have hne : x1 - x0 ≠ 0 := sub_ne_zero.mpr (ne_of_gt h01)
          rw [mul_div_assoc, div_self hne, mul_one]
          ring
        | cons r t' =>
          exfalso
          have hr : x1 < r.1 := (List.chain'_cons.mp hchain).1
          have hrl : r.1 ≤ ((r :: t').getLastD (0, 0)).1 :=
            fst_head_le_getLastD r t' (List.chain'_cons.mp hchain).2
          have hsame : (((x1, y1) :: r :: t').getLastD (0, 0)) =
              ((r :: t').getLastD (0, 0)) := by
            simp [List.getLastD_eq_getLast?, List.getLast?_cons_cons]
          rw [hsame] at hlx
          linarith
      · rw [if_neg hxx1]
        have := ih hchain (by simpa using hx)
        simpa using this

/-- C3: for the curve `[(0,1),(0.5,0.8),(1,0.2)]` and the grid
`[0, 0.25, 0.5, 0.75, 1]`, `resample` (`np.interp` on the curve, line 81
of `wb.py`) returns exactly `[1, 0.9, 0.8, 0.5, 0.2]`. -/
theorem C3_scenario1 :
    resample [(0, 1), (1/2, 4/5), (1, 1/5)] [0, 1/4, 1/2, 3/4, 1] =
      Except.ok [1, 9/10, 4/5, 1/2, 1/5] := by
  unfold resample
  rw [if_neg (by simp)]
  norm_num [np_interp1]

/-- C5: for a non-empty curve with strictly increasing x, `resample`
clamps: grid points below the curve's first x get the first y, grid
points above the last x get the last y. -/
theorem C5_clamp (curve : List (ℚ × ℚ)) (grid : List ℚ)
    (hne : curve ≠ []) (hmono : List.Chain' (· < ·) (curve.map Prod.fst))
    (out : List ℚ) (hout : resample curve grid = Except.ok out) :
    ∀ (i : ℕ) (x : ℚ), grid[i]? = some x →
      (x < (curve.headD (0, 0)).1 → out[i]? = some ((curve.headD (0, 0)).2)) ∧
      ((curve.getLastD (0, 0)).1 < x → out[i]? = some ((curve.getLastD (0, 0)).2)) := by
  intro i x hi
  have hout' : grid.map (np_interp1 curve) = out := by
    unfold resample at hout
    rw [if_neg hne] at hout
    exact Except.ok.inj hout
  rw [← hout', List.getElem?_map, hi, Option.map_some']
  constructor
  · intro hlt
    rw [np_interp1_clamp_left curve hne x (le_of_lt hlt)]
  · intro hgt
    rw [np_interp1_clamp_right curve hmono x (le_of_lt hgt)]

/-- Witness for C5 on the curve `[(0,1),(1,0)]` and the out-of-range grid
`[-1, 2]`. -/
theorem C5_clamp_w :
    (([1, 0] : List ℚ))[0]? = some 1 ∧ (([1, 0] : List ℚ))[1]? = some 0 :=
  ⟨(C5_clamp [(0, 1), (1, 0)] [-1, 2] (by simp) (by norm_num) [1, 0]
      (by unfold resample; rw [if_neg (by simp)]; norm_num [np_interp1]) 0 (-1) rfl).1
      (by norm_num),
   (C5_clamp [(0, 1), (1, 0)] [-1, 2] (by simp) (by norm_num) [1, 0]
      (by unfold resample; rw [if_neg (by simp)]; norm_num [np_interp1]) 1 2 rfl).2
      (by norm_num)⟩

/-- Interpolation at a sample point of a strictly increasing curve
returns that point's y-value. -/
theorem np_interp1_self (c : List (ℚ × ℚ)) :
    ∀ p : ℚ × ℚ, List.Chain' (· < ·) (c.map Prod.fst) → p ∈ c →
      np_interp1 c p.1 = p.2 := by
  induction c with
  | nil =>
    intro p _ hp
    cases hp
  | cons q c' ih =>
    intro p hmono hp
    rcases List.mem_cons.mp hp with h | h
    · subst h
      match p, c' with
      | (x0, y0), [] => simp [np_interp1_single]
      | (x0, y0), (x1, y1) :: t => simp [np_interp1_cons2]
    · have hq : q.1 < p.1 := fst_head_lt_of_mem c' q p hmono h
      match q, c' with
      | (xq, yq), [] => cases h
      | (xq, yq), (xr, yr) :: t =>
        rw [np_interp1_cons2, if_neg (not_le.mpr hq)]
        have hqr : xq < xr := (List.chain'_cons.mp hmono).1
        by_cases hpr : p.1 ≤ xr
        · rcases List.mem_cons.mp h with h2 | h2
          · rw [if_pos hpr, h2]
            have hner : xr - xq ≠ 0 := sub_ne_zero.mpr (ne_of_gt hqr)
            show yq + (yr - yq) * (xr - xq) / (xr - xq) = yr
            rw [mul_div_assoc, div_self hner, mul_one]
            ring
          · exfalso
            have : xr < p.1 :=
              fst_head_lt_of_mem t (xr, yr) p (List.chain'_cons.mp hmono).2 h2
            linarith
        · rw [if_neg hpr]
          exact ih p (List.chain'_cons.mp hmono).2
            (by rcases List.mem_cons.mp h with h2 | h2
                · exact absurd (le_of_eq (congrArg Prod.fst h2)) hpr
                · exact List.mem_cons_of_mem _ h2)

/-- C6: resampling a strictly increasing curve on its own x-grid returns
the original y-values unchanged. -/
theorem C6_identity (curve : List (ℚ × ℚ)) (hne : curve ≠ [])
    (hmono : List.Chain' (· < ·) (curve.map Prod.fst)) :
    resample curve (curve.map Prod.fst) = Except.ok (curve.map Prod.snd) := by
  unfold resample
  rw [if_neg hne]
  congr 1
  rw [List.map_map]
  exact List.map_congr_left (fun p hp => np_interp1_self curve p hmono hp)

/-- Witness for C6 on Scenario 1's curve. -/
theorem C6_identity_w :
    resample [(0, 1), (1/2, 4/5), (1, 1/5)]
        (([(0, 1), (1/2, 4/5), (1, 1/5)] : List (ℚ × ℚ)).map Prod.fst) =
      Except.ok (([(0, 1), (1/2, 4/5), (1, 1/5)] : List (ℚ × ℚ)).map Prod.snd) :=
  C6_identity [(0, 1), (1/2, 4/5), (1, 1/5)] (by simp) (by norm_num)

/-- `np_interp1` commutes with dividing every y-value by a constant
(the branch structure only depends on the x-coordinates). -/
theorem np_interp1_map_div (l : List (ℚ × ℚ)) (c x : ℚ) :
    np_interp1 (l.map (fun p => (p.1, p.2 / c))) x = np_interp1 l x / c := by
  induction l with
  | nil => simp [np_interp1_nil]
  | cons p t ih =>
    match p, t with
    | (x0, y0), [] => simp [np_interp1_single]
    | (x0, y0), (x1, y1) :: t' =>
      simp only [List.map_cons]
      rw [np_interp1_cons2, np_interp1_cons2]
      by_cases h0 : x ≤ x0
      · simp [h0]
      · rw [if_neg h0, if_neg h0]
        by_cases h1 : x ≤ x1
        · rw [if_pos h1, if_pos h1]
          ring
        · rw [if_neg h1, if_neg h1]
          simpa using ih

/-- `np_interp1` is additive in the y-values for a fixed x-array. -/
theorem np_interp1_zip_add (xs : List ℚ) :
    ∀ ys zs : List ℚ, ys.length = zs.length → ∀ x : ℚ,
      np_interp1 (xs.zip (List.zipWith (· + ·) ys zs)) x =
        np_interp1 (xs.zip ys) x + np_interp1 (xs.zip zs) x := by
  induction xs with
  | nil =>
    intro ys zs _ x
    simp [np_interp1_nil]
  | cons a t ih =>
    intro ys zs hlen x
    match ys, zs with
    | [], [] => simp [np_interp1_nil]
    | [], z :: zs' => simp at hlen
    | y :: ys', [] => simp at hlen
    | y :: ys', z :: zs' =>
      simp only [List.zipWith_cons_cons, List.zip_cons_cons]
      match t with
      | [] => simp [np_interp1_single]
      | b :: t' =>
        match ys', zs' with
        | [], [] => simp [np_interp1_single]
        | [], z1 :: zs'' => simp at hlen
        | y1 :: ys'', [] => simp at hlen
        | y1 :: ys'', z1 :: zs'' =>
          simp only [List.zipWith_cons_cons, List.zip_cons_cons]
          rw [np_interp1_cons2, np_interp1_cons2, np_interp1_cons2]
          by_cases h0 : x ≤ a
          · simp [h0]
          · rw [if_neg h0, if_neg h0, if_neg h0]
            by_cases h1 : x ≤ b
            · rw [if_pos h1, if_pos h1, if_pos h1]
              ring
            · rw [if_neg h1, if_neg h1, if_neg h1]
              have := ih (y1 :: ys'') (z1 :: zs'') (by simpa using hlen) x
              simpa using this

/-- The pointwise sum of a non-empty family of rows of width `n` has
width `n`. -/
theorem sumRows_length (n : ℕ) :
    ∀ rows : List (List ℚ), rows ≠ [] → (∀ r ∈ rows, r.length = n) →
      (sumRows rows).length = n := by
  intro rows
  induction rows with
  | nil =>
    intro hne _
    exact absurd rfl hne
  | cons r rs ih =>
    intro _ h
    match rs with
    | [] => simpa using h r (by simp)
    | r' :: rs' =>
      show (List.zipWith (· + ·) r (sumRows (r' :: rs'))).length = n
      rw [List.length_zipWith]
      have h1 : r.length = n := h r (by simp)
      have h2 : (sumRows (r' :: rs')).length = n :=
        ih (by simp) (fun s hs => h s (by simp [hs]))
      rw [h1, h2, min_self]

/-- Interpolating the pointwise sum of a family of equal-width rows gives
the sum of the per-row interpolations. -/
theorem np_interp1_zip_sumRows (xs : List ℚ) (n : ℕ) :
    ∀ rows : List (List ℚ), (∀ r ∈ rows, r.length = n) → ∀ x : ℚ,
      np_interp1 (xs.zip (sumRows rows)) x =
        (rows.map (fun r => np_interp1 (xs.zip r) x)).sum := by
  intro rows
  induction rows with
  | nil =>
    intro _ x
    simp [np_interp1_nil, sumRows]
  | cons r rs ih =>
    intro h x
    match rs with
    | [] => simp [sumRows]
    | r' :: rs' =>
      show np_interp1 (xs.zip (List.zipWith (· + ·) r (sumRows (r' :: rs')))) x = _
      rw [np_interp1_zip_add xs r (sumRows (r' :: rs'))
        (by rw [h r (by simp),
                sumRows_length n (r' :: rs') (by simp) (fun s hs => h s (by simp [hs]))])
        x]
      rw [ih (fun s hs => h s (by simp [hs])) x]
      simp

/-- Interpolating `np.mean(ys, axis=0)` gives the arithmetic mean of the
per-row interpolations: this is what makes line 81 of `wb.py` a "mean
curve" of the per-class resampled curves. -/
theorem np_interp1_zip_mean (xs : List ℚ) (ys : List (List ℚ)) (n : ℕ)
    (h : ∀ r ∈ ys, r.length = n) (x : ℚ) :
    np_interp1 (xs.zip (npMeanAxis0 ys)) x =
      (ys.map (fun r => np_interp1 (xs.zip r) x)).sum / (ys.length : ℚ) := by
  unfold npMeanAxis0
  rw [List.zip_map_right]
  have hmap : List.map (Prod.map id (fun v => v / (ys.length : ℚ))) (xs.zip (sumRows ys)) =
      (xs.zip (sumRows ys)).map (fun p => (p.1, p.2 / (ys.length : ℚ))) :=
    List.map_congr_left (fun p _ => rfl)
  rw [hmap, np_interp1_map_div, np_interp1_zip_sumRows xs n ys h x]

/-- Inversion of a successful `plot_curve_wandb` call: the input was
well-formed and the three log lists have the block structure of the
Python loop (mean block first, then one block per class when
`only_mean` is false). -/
theorem plot_curve_wandb_ok_inv (xs : List ℚ) (ys : List (List ℚ)) (names : List String)
    (N : ℤ) (om : Bool) (xl : List ℚ) (yl : List ℚ) (cl : List String)
    (h : plot_curve_wandb xs ys names N om = Except.ok (xl, yl, cl)) :
    xs ≠ [] ∧ 0 ≤ N ∧ (∀ r ∈ ys, r.length = xs.length) ∧
      (om = false → ys.length ≤ names.length) ∧
      xl = (if om then xs_new xs N.toNat
            else xs_new xs N.toNat ++ (List.replicate ys.length (xs_new xs N.toNat)).flatten) ∧
      yl = (if om then (xs_new xs N.toNat).map (np_interp1 (xs.zip (npMeanAxis0 ys)))
            else (xs_new xs N.toNat).map (np_interp1 (xs.zip (npMeanAxis0 ys))) ++
              (ys.map (fun y => (xs_new xs N.toNat).map (np_interp1 (xs.zip y)))).flatten) ∧
      cl = (if om then List.replicate (xs_new xs N.toNat).length "mean"
            else List.replicate (xs_new xs N.toNat).length "mean" ++
              ((names.take ys.length).map
                (fun n => List.replicate (xs_new xs N.toNat).length n)).flatten) := by
  unfold plot_curve_wandb at h
  split at h
  next h1 => exact Except.noConfusion h
  next h1 =>
  split at h
  next h2 => exact Except.noConfusion h
  next h2 =>
  split at h
  next h3 => exact Except.noConfusion h
  next h3 =>
  split at h
  next h4 => exact Except.noConfusion h
  next h4 =>
  have hrect : ∀ r ∈ ys, r.length = xs.length := by
    intro r hr
    by_contra hc
    exact h3 (List.any_eq_true.mpr ⟨r, hr, by simpa using hc⟩)
  have hnames : om = false → ys.length ≤ names.length := by
    intro hom
    by_contra hc
    exact h4 ⟨hom, by omega⟩
  split at h
  next h5 =>
    simp only [Except.ok.injEq, Prod.mk.injEq] at h
    exact ⟨h1, by omega, hrect, hnames, by simp [h5, h.1.symm],
      by simp [h5, h.2.1.symm], by simp [h5, h.2.2.symm]⟩
  next h5 =>
    have hom : om = false := by
      cases om
      · rfl
      · exact absurd rfl h5
    simp only [Except.ok.injEq, Prod.mk.injEq] at h
    exact ⟨h1, by omega, hrect, hnames, by simp [hom, h.1.symm],
      by simp [hom, h.2.1.symm], by simp [hom, h.2.2.symm]⟩

/-- Scenario 2 of the spec, evaluated on the embedding: two classes
`A = [(0,1),(1,0)]`, `B = [(0,0.5),(1,0.5)]`, `sampleCount = 3`,
per-class output requested. -/
theorem scenario2_eval :
    plot_curve_wandb [0, 1] [[1, 0], [1/2, 1/2]] ["A", "B"] 3 false =
      Except.ok ([0, 1/2, 1, 0, 1/2, 1, 0, 1/2, 1],
        [3/4, 1/2, 1/4, 1, 1/2, 0, 1/2, 1/2, 1/2],
        ["mean", "mean", "mean", "A", "A", "A", "B", "B", "B"]) := by
  have hg : xs_new [0, 1] (3 : ℤ).toNat = [0, 1/2, 1] := by
    show linspace 0 1 3 = [0, 1/2, 1]
    unfold linspace
    rw [if_neg (by norm_num), if_neg (by norm_num)]
    norm_num [List.range_succ]
  have hmean : npMeanAxis0 [[1, 0], [1/2, 1/2]] = [3/4, 1/4] := by
    norm_num [npMeanAxis0, sumRows]
  simp only [plot_curve_wandb]
  rw [if_neg (by simp), if_neg (by norm_num), if_neg (by simp), if_neg (by simp)]
  rw [hg, hmean]
  norm_num [np_interp1, List.replicate_succ]

/-- C1: for every family of curves sharing a strictly increasing x-array,
the mean block that `aggregate` (`plot_curve_wandb`) logs equals, at each
grid point, the arithmetic mean over all classes of the per-class
linearly interpolated y-values; and Scenario 2 of the spec holds
concretely (mean curve `[0.75, 0.5, 0.25]`, per-class blocks equal to the
original curves at the grid points). -/
theorem C1_mean_curve :
    (∀ (xs : List ℚ) (ys : List (List ℚ)) (names : List String) (N : ℤ) (om : Bool)
       (xl yl : List ℚ) (cl : List String),
       List.Chain' (· < ·) xs → ys ≠ [] →
       plot_curve_wandb xs ys names N om = Except.ok (xl, yl, cl) →
       ∀ (i : ℕ) (x : ℚ), (xs_new xs N.toNat)[i]? = some x →
         yl[i]? =
           some ((ys.map (fun r => np_interp1 (xs.zip r) x)).sum / (ys.length : ℚ))) ∧
    plot_curve_wandb [0, 1] [[1, 0], [1/2, 1/2]] ["A", "B"] 3 false =
      Except.ok ([0, 1/2, 1, 0, 1/2, 1, 0, 1/2, 1],
        [3/4, 1/2, 1/4, 1, 1/2, 0, 1/2, 1/2, 1/2],
        ["mean", "mean", "mean", "A", "A", "A", "B", "B", "B"]) := by
  constructor
  · intro xs ys names N om xl yl cl hmono hys hok i x hi
    obtain ⟨hxs, hN, hrect, hnames, hxl, hyl, hcl⟩ :=
      plot_curve_wandb_ok_inv xs ys names N om xl yl cl hok
    have hilt : i < (xs_new xs N.toNat).length := by
      by_contra hc
      rw [List.getElem?_eq_none (by omega)] at hi
      exact Option.noConfusion hi
    have hmean : (xs_new xs N.toNat).map (np_interp1 (xs.zip (npMeanAxis0 ys))) =
        (xs_new xs N.toNat).map
          (fun x => (ys.map (fun r => np_interp1 (xs.zip r) x)).sum / (ys.length : ℚ)) :=
      List.map_congr_left (fun u _ => np_interp1_zip_mean xs ys xs.length hrect u)
    have hyi : yl[i]? =
        ((xs_new xs N.toNat).map (np_interp1 (xs.zip (npMeanAxis0 ys))))[i]? := by
      rw [hyl]
      cases om
      · simp only [if_neg Bool.false_ne_true]
        exact List.getElem?_append_left (by simpa using hilt)
      · simp
    rw [hyi, hmean, List.getElem?_map, hi, Option.map_some']
  · exact scenario2_eval

/-- Witness for C1: the mean block of Scenario 2 at grid point `1/2` is
the mean of the two per-class interpolated values. -/
theorem C1_mean_curve_w :
    ([3/4, 1/2, 1/4, 1, 1/2, 0, 1/2, 1/2, 1/2] : List ℚ)[1]? =
      some ((([[1, 0], [1/2, 1/2]] : List (List ℚ)).map
          (fun r => np_interp1 (([0, 1] : List ℚ).zip r) (1/2))).sum /
        (([[1, 0], [1/2, 1/2]] : List (List ℚ)).length : ℚ)) :=
  C1_mean_curve.1 [0, 1] [[1, 0], [1/2, 1/2]] ["A", "B"] 3 false
    [0, 1/2, 1, 0, 1/2, 1, 0, 1/2, 1]
    [3/4, 1/2, 1/4, 1, 1/2, 0, 1/2, 1/2, 1/2]
    ["mean", "mean", "mean", "A", "A", "A", "B", "B", "B"]
    (by norm_num [List.chain'_cons]) (by simp) C1_mean_curve.2 1 (1/2)
    (by
      have hg : xs_new [0, 1] (3 : ℤ).toNat = [0, 1/2, 1] := by
        show linspace 0 1 3 = [0, 1/2, 1]
        unfold linspace
        rw [if_neg (by norm_num), if_neg (by norm_num)]
        norm_num [List.range_succ]
      rw [hg]
      rfl)

/-- `np.linspace` always returns as many points as requested. -/
theorem linspace_length (a b : ℚ) (n : ℕ) : (linspace a b n).length = n := by
  unfold linspace
  split
  next h => simp [h]
  next h =>
  split
  next h1 => simp [h1]
  next h1 => rw [List.length_map, List.length_range]

/-- Closed form of the `i`-th point of `np.linspace a b n` for `n ≥ 2`. -/
theorem linspace_getElem? (a b : ℚ) (n i : ℕ) (h2 : 2 ≤ n) (hi : i < n) :
    (linspace a b n)[i]? = some (a + (b - a) * i / ((n : ℚ) - 1)) := by
  unfold linspace
  rw [if_neg (by omega), if_neg (by omega)]
  rw [List.getElem?_map, List.getElem?_range hi]
  rfl

/-- The first `np.linspace` point is the requested start value. -/
theorem linspace_head? (a b : ℚ) (n : ℕ) (h1 : 1 ≤ n) :
    (linspace a b n).head? = some a := by
  rcases Nat.lt_or_ge n 2 with h | h
  · have : n = 1 := by omega
    subst this
    simp [linspace]
  · have h0 := linspace_getElem? a b n 0 h (by omega)
    rw [List.head?_eq_getElem?, h0]
    norm_num

/-- The last `np.linspace` point is the requested stop value when at
least two points are requested (`np.linspace` includes the endpoint). -/
theorem linspace_getLast? (a b : ℚ) (n : ℕ) (h2 : 2 ≤ n) :
    (linspace a b n).getLast? = some b := by
  rw [List.getLast?_eq_getElem?, linspace_length]
  rw [linspace_getElem? a b n (n - 1) h2 (by omega)]
  have hcast : ((n - 1 : ℕ) : ℚ) = (n : ℚ) - 1 := by
    push_cast [Nat.cast_sub (by omega : 1 ≤ n)]
    ring
  have hne : (n : ℚ) - 1 ≠ 0 := by
    have h2q : (2 : ℚ) ≤ (n : ℚ) := by exact_mod_cast h2
    intro hc
    have h1q : (n : ℚ) = 1 := by linarith
    linarith
  rw [hcast, mul_div_assoc, div_self hne, mul_one]
  congr 1
  ring

/-- C2 counterexample: the claim fails at `sampleCount = 1`.  For the
x-array `[0, 1]` and `N = 1`, `np.linspace(0, 1, 1)` is `[0]`: the grid's
endpoints are not the first and last x-values (its only point is the
first x-value, and `1` does not appear). -/
theorem C2_grid_cex :
    xs_new [0, 1] (1 : ℤ).toNat = [0] ∧
      (xs_new [0, 1] (1 : ℤ).toNat).getLast? ≠ some 1 := by
  constructor
  · show linspace 0 1 1 = [0]
    simp [linspace]
  · show (linspace 0 1 1).getLast? ≠ some 1
    simp only [linspace]
    norm_num

/-- C2 (amended): the grid `aggregate` builds is exactly
`np.linspace(xs[0], xs[-1], N)`, whose bounds come from the single
reference x-array `xs` (not a union of domains).  For `N ≥ 2` it has `N`
points, starts at the first x-value, ends at the last x-value, and is
evenly spaced with step `(xs[-1] - xs[0]) / (N - 1)`; for `N = 1` it is
the single point `[xs[0]]` and the last x-value is not an endpoint. -/
theorem C2_grid_amended :
    (∀ (xs : List ℚ) (ys : List (List ℚ)) (names : List String) (N : ℤ)
       (xl yl : List ℚ) (cl : List String),
       plot_curve_wandb xs ys names N true = Except.ok (xl, yl, cl) →
       xl = xs_new xs N.toNat) ∧
    (∀ (xs : List ℚ) (N : ℤ), 2 ≤ N →
       (xs_new xs N.toNat).length = N.toNat ∧
       (xs_new xs N.toNat).head? = some (xs.headD 0) ∧
       (xs_new xs N.toNat).getLast? = some (xs.getLastD 0) ∧
       (∀ (i : ℕ) (u v : ℚ), (xs_new xs N.toNat)[i]? = some u →
         (xs_new xs N.toNat)[i + 1]? = some v →
         v - u = (xs.getLastD 0 - xs.headD 0) / ((N : ℚ) - 1))) ∧
    (∀ (xs : List ℚ) (N : ℤ), N = 1 → xs_new xs N.toNat = [xs.headD 0]) := by
  refine ⟨?_, ?_, ?_⟩
  · intro xs ys names N xl yl cl h
    exact ((plot_curve_wandb_ok_inv xs ys names N true xl yl cl h).2.2.2.2.1).trans
      (by simp)
  · intro xs N hN
    have h2 : 2 ≤ N.toNat := by omega
    have hcastN : ((N.toNat : ℕ) : ℚ) = (N : ℚ) := by
      have := Int.toNat_of_nonneg (by omega : (0 : ℤ) ≤ N)
      exact_mod_cast congrArg (fun z : ℤ => (z : ℚ)) this
    unfold xs_new
    refine ⟨linspace_length _ _ _, linspace_head? _ _ _ (by omega),
      linspace_getLast? _ _ _ h2, ?_⟩
    intro i u v hu hv
    have hilt : i + 1 < N.toNat := by
      by_contra hc
      rw [List.getElem?_eq_none (by rw [linspace_length]; omega)] at hv
      exact Option.noConfusion hv
    rw [linspace_getElem? _ _ _ i h2 (by omega)] at hu
    rw [linspace_getElem? _ _ _ (i + 1) h2 hilt] at hv
    have hu' := Option.some.inj hu
    have hv' := Option.some.inj hv
    rw [← hu', ← hv', hcastN]
    have hne : (N : ℚ) - 1 ≠ 0 := by
      have h2q : (2 : ℚ) ≤ (N : ℚ) := by exact_mod_cast hN
      intro hc
      have h1q : (N : ℚ) = 1 := by linarith
      linarith
    push_cast
    field_simp
    ring
  · intro xs N hN
    subst hN
    show linspace (xs.headD 0) (xs.getLastD 0) 1 = [xs.headD 0]
    simp [linspace]

/-- Witness for C2 (amended) at `xs = [0, 1]`, `N = 3`. -/
theorem C2_grid_amended_w :
    (xs_new [0, 1] (3 : ℤ).toNat).length = (3 : ℤ).toNat ∧
      (xs_new [0, 1] (3 : ℤ).toNat).head? = some (([0, 1] : List ℚ).headD 0) ∧
      (xs_new [0, 1] (3 : ℤ).toNat).getLast? = some (([0, 1] : List ℚ).getLastD 0) :=
  ⟨(C2_grid_amended.2.1 [0, 1] 3 (by norm_num)).1,
   (C2_grid_amended.2.1 [0, 1] 3 (by norm_num)).2.1,
   (C2_grid_amended.2.1 [0, 1] 3 (by norm_num)).2.2.1⟩

/-- C4 counterexample: `sampleCount = 0` does NOT raise — `np.linspace`
with `num = 0` returns an empty array and the call succeeds with empty
log lists; likewise `resample` on an empty grid succeeds with an empty
result.  This refutes "raise exactly when ... empty grid, or
sampleCount <= 0". -/
theorem C4_errors_cex :
    plot_curve_wandb [0, 1] [[1, 0]] [] 0 true = Except.ok ([], [], []) ∧
      resample [((0 : ℚ), 1), (1, 0)] [] = Except.ok [] := by
  constructor
  · have hg : xs_new [0, 1] (0 : ℤ).toNat = [] := by
      show linspace 0 1 0 = []
      simp [linspace]
    simp only [plot_curve_wandb]
    rw [if_neg (by simp), if_neg (by norm_num), if_neg (by simp), if_neg (by simp)]
    rw [hg]
    simp
  · simp [resample]

/-- C4 (amended): `resample` errors exactly on an empty curve, and
`aggregate` (`plot_curve_wandb`), on well-shaped inputs, errors exactly
when the x-array is empty or the sample count is negative.  An empty
grid and `sampleCount = 0` produce empty outputs without error. -/
theorem C4_errors_amended :
    (∀ (curve : List (ℚ × ℚ)) (grid : List ℚ),
       (∃ e, resample curve grid = Except.error e) ↔ curve = []) ∧
    (∀ (xs : List ℚ) (ys : List (List ℚ)) (names : List String) (N : ℤ) (om : Bool),
       (∀ r ∈ ys, r.length = xs.length) →
       (om = false → ys.length ≤ names.length) →
       ((∃ e, plot_curve_wandb xs ys names N om = Except.error e) ↔
         (xs = [] ∨ N < 0))) := by
  constructor
  · intro curve grid
    unfold resample
    by_cases h : curve = []
    · simp [h]
    · simp [h]
  · intro xs ys names N om hrect hnames
    unfold plot_curve_wandb
    by_cases h1 : xs = []
    · simp [h1]
    · rw [if_neg h1]
      by_cases h2 : N < 0
      · simp [h1, h2]
      · rw [if_neg h2]
        have h3 : ¬ ys.any (fun r => r.length ≠ xs.length) = true := by
          intro hc
          obtain ⟨r, hr, hne⟩ := List.any_eq_true.mp hc
          exact absurd (hrect r hr) (by simpa using hne)
        rw [if_neg h3]
        have h4 : ¬ (om = false ∧ names.length < ys.length) := by
          rintro ⟨hom, hlt⟩
          exact absurd (hnames hom) (by omega)
        rw [if_neg h4]
        cases om <;> simp [h1, h2]

/-- Witness for C4 (amended): the empty curve errors; a well-formed call
with `sampleCount = 0` does not. -/
theorem C4_errors_amended_w :
    (∃ e, resample ([] : List (ℚ × ℚ)) [0] = Except.error e) ∧
      ¬ (∃ e, plot_curve_wandb [0, 1] [[1, 0]] [] 0 true = Except.error e) :=
  ⟨(C4_errors_amended.1 [] [0]).mpr rfl,
   fun hc => by
     rcases (C4_errors_amended.2 [0, 1] [[1, 0]] [] 0 true (by norm_num)
         (by simp)).mp hc with h | h
     · exact absurd h (by simp)
     · norm_num at h⟩

/-- At a query point bracketed by two consecutive curve points, linear
interpolation stays between the two bracketing y-values. -/
theorem np_interp1_between (x : ℚ) :
    ∀ (cs : List (ℚ × ℚ)) (i : ℕ) (p q : ℚ × ℚ),
      List.Chain' (· < ·) (cs.map Prod.fst) →
      cs[i]? = some p → cs[i + 1]? = some q → p.1 ≤ x → x ≤ q.1 →
      min p.2 q.2 ≤ np_interp1 cs x ∧ np_interp1 cs x ≤ max p.2 q.2 := by
  intro cs
  induction cs with
  | nil =>
    intro i p q _ hp _ _ _
    simp at hp
  | cons c0 c' ih =>
    intro i p q hmono hp hq hpx hxq
    cases i with
    | zero =>
      have hpc0 : p = c0 := (Option.some.inj (by simpa using hp)).symm
      match c' with
      | [] => simp at hq
      | c1 :: t' =>
        have hqc1 : q = c1 := (Option.some.inj (by simpa using hq)).symm
        obtain ⟨x0, y0⟩ := c0
        obtain ⟨x1, y1⟩ := c1
        subst hpc0 hqc1
        have hm : List.Chain' (· < ·) (x0 :: x1 :: t'.map Prod.fst) := by
          simpa using hmono
        have h01 : x0 < x1 := (List.chain'_cons.mp hm).1
        rw [np_interp1_cons2]
        by_cases hx0 : x ≤ x0
        · rw [if_pos hx0]
          exact ⟨min_le_left _ _, le_max_left _ _⟩
        · rw [if_neg hx0]
          rw [if_pos (by simpa using hxq)]
          have hd : 0 < x1 - x0 := by linarith
          have hu0 : 0 ≤ (x - x0) / (x1 - x0) :=
            div_nonneg (by simp at hpx; linarith) (le_of_lt hd)
          have hu1 : (x - x0) / (x1 - x0) ≤ 1 :=
            (div_le_one hd).mpr (by simp at hxq; linarith)
          rw [mul_div_assoc]
          rcases le_total y0 y1 with hy | hy
          · rw [min_eq_left hy, max_eq_right hy]
            constructor
            · have := mul_nonneg (by linarith : (0 : ℚ) ≤ y1 - y0) hu0
              linarith
            · have := mul_le_mul_of_nonneg_left hu1 (by linarith : (0 : ℚ) ≤ y1 - y0)
              linarith
          · rw [min_eq_right hy, max_eq_left hy]
            constructor
            · have := mul_le_mul_of_nonpos_left hu1 (by linarith : y1 - y0 ≤ 0)
              linarith
            · have := mul_nonpos_of_nonpos_of_nonneg (by linarith : y1 - y0 ≤ 0) hu0
              linarith
    | succ i' =>
      have hp' : c'[i']? = some p := by simpa using hp
      have hq' : c'[i' + 1]? = some q := by simpa using hq
      have hp_mem : p ∈ c' := List.getElem?_mem hp'
      have h0p : c0.1 < p.1 := fst_head_lt_of_mem c' c0 p hmono hp_mem
      have hchain : List.Chain' (· < ·) (c'.map Prod.fst) := by
        rw [List.map_cons] at hmono
        exact hmono.tail
      match c' with
      | [] => simp at hp'
      | c1 :: t' =>
        obtain ⟨x0, y0⟩ := c0
        obtain ⟨x1, y1⟩ := c1
        have hm : List.Chain' (· < ·) (x0 :: x1 :: t'.map Prod.fst) := by
          simpa using hmono
        have h01 : x0 < x1 := (List.chain'_cons.mp hm).1
        rw [np_interp1_cons2, if_neg (show ¬ x ≤ x0 by
          simp only [] at h0p
          push_neg
          linarith)]
        by_cases hx1 : x ≤ x1
        · have hchain' : List.Chain' (· < ·) (((x1, y1) :: t').map Prod.fst) := hchain
          have hc1p : x1 ≤ p.1 := by
            rcases List.mem_cons.mp hp_mem with h | h
            · rw [h]
            · exact le_of_lt (fst_head_lt_of_mem t' (x1, y1) p hchain' h)
          have hxx : x = x1 := le_antisymm hx1 (le_trans hc1p hpx)
          have hpc1 : p = (x1, y1) := by
            rcases List.mem_cons.mp hp_mem with h | h
            · exact h
            · exfalso
              have := fst_head_lt_of_mem t' (x1, y1) p hchain' h
              have hple : p.1 ≤ x1 := le_trans hpx (le_of_eq hxx)
              simp at this
              linarith
          have hner : x1 - x0 ≠ 0 := sub_ne_zero.mpr (ne_of_gt h01)
          have hval : y0 + (y1 - y0) * (x - x0) / (x1 - x0) = y1 := by
            rw [hxx, mul_div_assoc, div_self hner, mul_one]
            ring
          rw [if_pos hx1, hval, hpc1]
          exact ⟨min_le_left _ _, le_max_left _ _⟩
        · rw [if_neg hx1]
          exact ih i' p q hchain hp' hq' hpx hxq

/-- C7: at any grid point lying between two consecutive sample points of
a strictly increasing curve, the value `resample` produces lies
(inclusively) between the two bracketing y-values — no overshoot. -/
theorem C7_no_overshoot (curve : List (ℚ × ℚ))
    (hmono : List.Chain' (· < ·) (curve.map Prod.fst))
    (i : ℕ) (p q : ℚ × ℚ) (hp : curve[i]? = some p) (hq : curve[i + 1]? = some q)
    (x : ℚ) (hpx : p.1 ≤ x) (hxq : x ≤ q.1)
    (v : ℚ) (hv : resample curve [x] = Except.ok [v]) :
    min p.2 q.2 ≤ v ∧ v ≤ max p.2 q.2 := by
  have hne : curve ≠ [] := by
    intro hc
    subst hc
    simp at hp
  unfold resample at hv
  rw [if_neg hne] at hv
  have : np_interp1 curve x = v := by
    have := Except.ok.inj hv
    simpa using this
  rw [← this]
  exact np_interp1_between x curve i p q hmono hp hq hpx hxq

/-- Witness for C7: the curve `[(0,0),(1,1)]` at `x = 1/2` stays within
`[0, 1]`. -/
theorem C7_no_overshoot_w :
    min ((0 : ℚ), (0 : ℚ)).2 ((1 : ℚ), (1 : ℚ)).2 ≤ 1/2 ∧
      1/2 ≤ max ((0 : ℚ), (0 : ℚ)).2 ((1 : ℚ), (1 : ℚ)).2 :=
  C7_no_overshoot [(0, 0), (1, 1)] (by norm_num [List.chain'_cons]) 0 (0, 0) (1, 1)
    rfl rfl (1/2) (by norm_num) (by norm_num) (1/2)
    (by unfold resample
        rw [if_neg (by simp)]
        norm_num [np_interp1])

/-- The flattened concatenation of equally long blocks has length
`count * blockLength`. -/
theorem length_flatten_of_const {α β : Type} (l : List α) (f : α → List β) (k : ℕ)
    (h : ∀ a ∈ l, (f a).length = k) : (l.map f).flatten.length = l.length * k := by
  induction l with
  | nil => simp
  | cons a t ih =>
    simp only [List.map_cons, List.flatten_cons, List.length_append, List.length_cons]
    rw [h a (by simp), ih (fun b hb => h b (by simp [hb]))]
    ring

/-- C8: a successful `aggregate` call with sample count `N` produces a
mean curve of `N` points; with per-class output requested it adds one
`N`-point block per class, and the logged x-list is the shared grid
repeated once per output curve (identical x-coordinates for all
curves). -/
theorem C8_shapes (xs : List ℚ) (ys : List (List ℚ)) (names : List String)
    (N : ℤ) (om : Bool) (xl yl : List ℚ) (cl : List String)
    (hok : plot_curve_wandb xs ys names N om = Except.ok (xl, yl, cl)) :
    ((xs_new xs N.toNat).length : ℤ) = N ∧
      xl = (List.replicate (if om then 1 else ys.length + 1) (xs_new xs N.toNat)).flatten ∧
      yl.length = (if om then 1 else ys.length + 1) * (xs_new xs N.toNat).length ∧
      cl.length = (if om then 1 else ys.length + 1) * (xs_new xs N.toNat).length := by
  obtain ⟨hxs, hN, hrect, hnames, hxl, hyl, hcl⟩ :=
    plot_curve_wandb_ok_inv xs ys names N om xl yl cl hok
  have hlen : (xs_new xs N.toNat).length = N.toNat := linspace_length _ _ _
  refine ⟨?_, ?_, ?_, ?_⟩
  · rw [hlen]
    omega
  · cases om
    · simp only [if_neg Bool.false_ne_true] at hxl ⊢
      rw [hxl, List.replicate_succ, List.flatten_cons]
    · simp only [if_pos rfl] at hxl ⊢
      simp [hxl]
  · cases om
    · simp only [if_neg Bool.false_ne_true] at hyl ⊢
      rw [hyl, List.length_append, List.length_map,
        length_flatten_of_const ys _ (xs_new xs N.toNat).length
          (fun a _ => List.length_map _ _)]
      ring
    · simp only [if_pos rfl] at hyl ⊢
      simp [hyl]
  · cases om
    · simp only [if_neg Bool.false_ne_true] at hcl ⊢
      rw [hcl, List.length_append, List.length_replicate,
        length_flatten_of_const (names.take ys.length) _ (xs_new xs N.toNat).length
          (fun a _ => List.length_replicate _ _)]
      rw [List.length_take, min_eq_left (hnames rfl)]
      ring
    · simp only [if_pos rfl] at hcl ⊢
      simp [hcl]

/-- Witness for C8 on Scenario 2: nine logged y-values = (2 classes + 1
mean) × 3 grid points. -/
theorem C8_shapes_w :
    ([3/4, 1/2, 1/4, 1, 1/2, 0, 1/2, 1/2, 1/2] : List ℚ).length =
      (if (false : Bool) then 1 else ([[1, 0], [1/2, 1/2]] : List (List ℚ)).length + 1) *
        (xs_new [0, 1] (3 : ℤ).toNat).length :=
  (C8_shapes [0, 1] [[1, 0], [1/2, 1/2]] ["A", "B"] 3 false
    [0, 1/2, 1, 0, 1/2, 1, 0, 1/2, 1]
    [3/4, 1/2, 1/4, 1, 1/2, 0, 1/2, 1/2, 1/2]
    ["mean", "mean", "mean", "A", "A", "A", "B", "B", "B"] scenario2_eval).2.2.1

/-- numpy/pandas rounding (`np.round`, used by `DataFrame.round`): round
half to even.  `⌊q⌋` when the fractional part is below 1/2, `⌊q⌋ + 1`
when above, and the even neighbour on ties. -/
def roundHalfEven (q : ℚ) : ℤ :=
  if q - ⌊q⌋ < 1/2 then ⌊q⌋
  else if 1/2 < q - ⌊q⌋ then ⌊q⌋ + 1
  else if 2 ∣ ⌊q⌋ then ⌊q⌋ else ⌊q⌋ + 1

/-- `DataFrame.round(3)` on a numeric value: scale by `10³`, round half
to even, scale back. -/
def round3 (q : ℚ) : ℚ := (roundHalfEven (q * 1000) : ℚ) / 1000

/-- One row of the table handed to `wb.plot_table`:
`{'class': ..., 'y': ..., 'x': ...}`. -/
structure TableRow where
  cls : String
  y : ℚ
  x : ℚ
deriving DecidableEq, Repr

/-- The table built by `create_custom_wandb_metric` (lines 42-48 of
`wb.py`): `pd.DataFrame({'class': classes, 'y': ys, 'x': xs}).round(3)`.
`round(3)` affects only the numeric `x`/`y` columns; the string `class`
column is untouched. -/
def create_custom_wandb_metric (xs ys : List ℚ) (classes : List String) : List TableRow :=
  (classes.zip (ys.zip xs)).map (fun r => ⟨r.1, round3 r.2.1, round3 r.2.2⟩)

/-- Decompose a successful indexed access into a zip. -/
theorem zip_getElem?_inv {α β : Type} (as : List α) (bs : List β) (i : ℕ) (p : α × β)
    (h : (as.zip bs)[i]? = some p) : as[i]? = some p.1 ∧ bs[i]? = some p.2 := by
  rw [List.zip_eq_zipWith, List.getElem?_zipWith] at h
  cases ha : as[i]? with
  | none =>
    rw [ha] at h
    simp at h
  | some a =>
    cases hb : bs[i]? with
    | none =>
      rw [ha, hb] at h
      simp at h
    | some b =>
      rw [ha, hb] at h
      have hp : (a, b) = p := Option.some.inj h
      subst hp
      exact ⟨rfl, rfl⟩

/-- The rounded value differs from the exact one by at most half a unit
in the third decimal place. -/
theorem round3_close (q : ℚ) : |round3 q - q| ≤ 1/2000 := by
  unfold round3 roundHalfEven
  have hfl : (⌊q * 1000⌋ : ℚ) ≤ q * 1000 := Int.floor_le _
  have hfu : q * 1000 < ⌊q * 1000⌋ + 1 := Int.lt_floor_add_one _
  rw [abs_le]
  split
  next h1 =>
    constructor <;> [nlinarith; nlinarith]
  next h1 =>
  split
  next h2 =>
    push_cast
    constructor <;> [nlinarith; nlinarith]
  next h2 =>
  have heq : q * 1000 - ⌊q * 1000⌋ = 1/2 := le_antisymm (not_lt.mp h2) (not_lt.mp h1)
  split
  next h3 =>
    constructor <;> [nlinarith; nlinarith]
  next h3 =>
    push_cast
    constructor <;> [nlinarith; nlinarith]

/-- C9: every `x`/`y` value placed in the logged table is the 3-decimal
rounding of the corresponding input value — the table reports rounded
interpolation results (each a multiple of 1/1000, within 1/2000 of the
exact value), not the exact ones. -/
theorem C9_rounding :
    (∀ q : ℚ, (∃ z : ℤ, round3 q = (z : ℚ) / 1000) ∧ |round3 q - q| ≤ 1/2000) ∧
    (∀ (xs ys : List ℚ) (classes : List String) (i : ℕ) (r : TableRow),
       (create_custom_wandb_metric xs ys classes)[i]? = some r →
       ∃ c0 y0 x0, classes[i]? = some c0 ∧ ys[i]? = some y0 ∧ xs[i]? = some x0 ∧
         r = ⟨c0, round3 y0, round3 x0⟩) := by
  constructor
  · intro q
    exact ⟨⟨roundHalfEven (q * 1000), rfl⟩, round3_close q⟩
  · intro xs ys classes i r h
    unfold create_custom_wandb_metric at h
    rw [List.getElem?_map] at h
    cases hz : (classes.zip (ys.zip xs))[i]? with
    | none =>
      rw [hz] at h
      simp at h
    | some pr =>
      rw [hz] at h
      simp only [Option.map_some'] at h
      obtain ⟨hc, hyx⟩ := zip_getElem?_inv classes (ys.zip xs) i pr hz
      obtain ⟨hy, hx⟩ := zip_getElem?_inv ys xs i pr.2 hyx
      exact ⟨pr.1, pr.2.1, pr.2.2, hc, hy, hx, (Option.some.inj h).symm⟩

/-- Witness for C9: a one-row table built from `x = 1/3`, `y = 2/3`. -/
theorem C9_rounding_w :
    ∃ c0 y0 x0, (["c"] : List String)[0]? = some c0 ∧
      ([2/3] : List ℚ)[0]? = some y0 ∧ ([1/3] : List ℚ)[0]? = some x0 ∧
      (⟨"c", round3 (2/3), round3 (1/3)⟩ : TableRow) = ⟨c0, round3 y0, round3 x0⟩ :=
  C9_rounding.2 [1/3] [2/3] ["c"] 0 ⟨"c", round3 (2/3), round3 (1/3)⟩ rfl

/-- Dictionary lookup in the module-level `_processed_plots` cache,
modelled as an association list (`_processed_plots.get(name)`). -/
def lookupTS (name : String) : List (String × ℕ) → Option ℕ
  | [] => none
  | (n, t) :: rest => if n = name then some t else lookupTS name rest

/-- Dictionary update `_processed_plots[name] = timestamp`: the new
binding shadows (replaces) any previous binding of `name`. -/
def insertTS (name : String) (ts : ℕ) (cache : List (String × ℕ)) : List (String × ℕ) :=
  (name, ts) :: cache.filter (fun p => p.1 ≠ name)

/-- `_log_plots(plots, step)` (lines 106-112 of `wb.py`): for each plot
name in order, if the cached timestamp differs from the current one the
image is sent (`wb.run.log`) and the cache is updated.  Returns the new
cache and the names sent, in order; the `step` passed to the sink does
not influence the control flow. -/
def _log_plots (plots : List (String × ℕ)) (cache : List (String × ℕ)) :
    List (String × ℕ) × List String :=
  match plots with
  | [] => (cache, [])
  | (name, ts) :: rest =>
    if lookupTS name cache = some ts then _log_plots rest cache
    else
      let r := _log_plots rest (insertTS name ts cache)
      (r.1, name :: r.2)

theorem lookupTS_insertTS_self (n : String) (t : ℕ) (c : List (String × ℕ)) :
    lookupTS n (insertTS n t c) = some t := by
  simp [insertTS, lookupTS]

theorem lookupTS_filter_ne (n m : String) (hnm : n ≠ m) :
    ∀ c : List (String × ℕ), lookupTS m (c.filter (fun p => p.1 ≠ n)) = lookupTS m c := by
  intro c
  induction c with
  | nil => rfl
  | cons p c' ih =>
    by_cases hp : p.1 = n
    · rw [List.filter_cons_of_neg (by simp [hp])]
      rw [ih]
      show lookupTS m c' = if p.1 = m then some p.2 else lookupTS m c'
      rw [if_neg (by rw [hp]; exact hnm)]
    · rw [List.filter_cons_of_pos (by simp [hp])]
      show (if p.1 = m then some p.2 else lookupTS m (c'.filter (fun p => p.1 ≠ n))) =
        if p.1 = m then some p.2 else lookupTS m c'
      rw [ih]

theorem lookupTS_insertTS_ne (n m : String) (t : ℕ) (c : List (String × ℕ))
    (hnm : n ≠ m) : lookupTS m (insertTS n t c) = lookupTS m c := by
  show (if n = m then some t else lookupTS m (c.filter (fun p => p.1 ≠ n))) = lookupTS m c
  rw [if_neg hnm, lookupTS_filter_ne n m hnm c]

/-- Processing plots that never mention `name` leaves its cache entry
unchanged. -/
theorem lookupTS_log_plots_preserved (name : String) :
    ∀ (plots cache : List (String × ℕ)), name ∉ plots.map Prod.fst →
      lookupTS name (_log_plots plots cache).1 = lookupTS name cache := by
  intro plots
  induction plots with
  | nil =>
    intro cache _
    rfl
  | cons p rest ih =>
    intro cache hmem
    obtain ⟨n, t⟩ := p
    have hne : n ≠ name := by
      intro hc
      exact hmem (by simp [hc])
    have hrest : name ∉ rest.map Prod.fst := fun hc => hmem (by simp [hc])
    show lookupTS name
        (if lookupTS n cache = some t then _log_plots rest cache
         else ((_log_plots rest (insertTS n t cache)).1,
               n :: (_log_plots rest (insertTS n t cache)).2)).1 = lookupTS name cache
    by_cases hhit : lookupTS n cache = some t
    · rw [if_pos hhit]
      exact ih cache hrest
    · rw [if_neg hhit]
      show lookupTS name (_log_plots rest (insertTS n t cache)).1 = lookupTS name cache
      rw [ih (insertTS n t cache) hrest, lookupTS_insertTS_ne n name t cache hne]

/-- A name is sent during `_log_plots` exactly when it appears in the
plots with a timestamp different from the cached one. -/
theorem log_plots_emits (name : String) :
    ∀ (plots cache : List (String × ℕ)), (plots.map Prod.fst).Nodup →
      (name ∈ (_log_plots plots cache).2 ↔
        ∃ ts, (name, ts) ∈ plots ∧ lookupTS name cache ≠ some ts) := by
  intro plots
  induction plots with
  | nil =>
    intro cache _
    show name ∈ ([] : List String) ↔ _
    simp
  | cons p rest ih =>
    intro cache hnd
    obtain ⟨n, t⟩ := p
    have hnd1 : n ∉ rest.map Prod.fst := by
      rw [List.map_cons, List.nodup_cons] at hnd
      exact hnd.1
    have hnd2 : (rest.map Prod.fst).Nodup := by
      rw [List.map_cons, List.nodup_cons] at hnd
      exact hnd.2
    show name ∈
        (if lookupTS n cache = some t then _log_plots rest cache
         else ((_log_plots rest (insertTS n t cache)).1,
               n :: (_log_plots rest (insertTS n t cache)).2)).2 ↔ _
    by_cases hhit : lookupTS n cache = some t
    · rw [if_pos hhit, ih cache hnd2]
      constructor
      · rintro ⟨ts, hts, hne⟩
        exact ⟨ts, List.mem_cons_of_mem _ hts, hne⟩
      · rintro ⟨ts, hts, hne⟩
        rcases List.mem_cons.mp hts with h | h
        · have h1 : name = n := congrArg Prod.fst h
          have h2 : ts = t := congrArg Prod.snd h
          subst h1
          subst h2
          exact absurd hhit hne
        · exact ⟨ts, h, hne⟩
    · rw [if_neg hhit]
      show name ∈ n :: (_log_plots rest (insertTS n t cache)).2 ↔ _
      rw [List.mem_cons, ih (insertTS n t cache) hnd2]
      constructor
      · rintro (h | ⟨ts, hts, hne⟩)
        · exact ⟨t, by simp [h], by rw [h]; exact hhit⟩
        · have hname_ne : n ≠ name := by
            intro he
            subst he
            exact hnd1 (List.mem_map.mpr ⟨(n, ts), hts, rfl⟩)
          refine ⟨ts, List.mem_cons_of_mem _ hts, ?_⟩
          rwa [lookupTS_insertTS_ne n name t cache hname_ne] at hne
      · rintro ⟨ts, hts, hne⟩
        rcases List.mem_cons.mp hts with h | h
        · exact Or.inl (congrArg Prod.fst h)
        · by_cases hname : name = n
          · exact Or.inl hname
          · refine Or.inr ⟨ts, h, ?_⟩
            rwa [lookupTS_insertTS_ne n name t cache (fun he => hname he.symm)]
    
/-- After `_log_plots`, the cache maps every processed plot name to its
current timestamp. -/
theorem log_plots_cache (name : String) (ts : ℕ) :
    ∀ (plots cache : List (String × ℕ)), (plots.map Prod.fst).Nodup →
      (name, ts) ∈ plots →
      lookupTS name (_log_plots plots cache).1 = some ts := by
  intro plots
  induction plots with
  | nil =>
    intro cache _ hmem
    cases hmem
  | cons p rest ih =>
    intro cache hnd hmem
    obtain ⟨n, t⟩ := p
    have hnd1 : n ∉ rest.map Prod.fst := by
      rw [List.map_cons, List.nodup_cons] at hnd
      exact hnd.1
    have hnd2 : (rest.map Prod.fst).Nodup := by
      rw [List.map_cons, List.nodup_cons] at hnd
      exact hnd.2
    show lookupTS name
        (if lookupTS n cache = some t then _log_plots rest cache
         else ((_log_plots rest (insertTS n t cache)).1,
               n :: (_log_plots rest (insertTS n t cache)).2)).1 = some ts
    rcases List.mem_cons.mp hmem with h | h
    · have h1 : name = n := congrArg Prod.fst h
      have h2 : ts = t := congrArg Prod.snd h
      subst h1
      subst h2
      by_cases hhit : lookupTS name cache = some ts
      · rw [if_pos hhit, lookupTS_log_plots_preserved name rest cache hnd1]
        exact hhit
      · rw [if_neg hhit]
        show lookupTS name (_log_plots rest (insertTS name ts cache)).1 = some ts
        rw [lookupTS_log_plots_preserved name rest _ hnd1]
        exact lookupTS_insertTS_self name ts cache
    · have hname_ne : n ≠ name := by
        intro he
        subst he
        exact hnd1 (List.mem_map.mpr ⟨(n, ts), h, rfl⟩)
      by_cases hhit : lookupTS n cache = some t
      · rw [if_pos hhit]
        exact ih cache hnd2 h
      · rw [if_neg hhit]
        show lookupTS name (_log_plots rest (insertTS n t cache)).1 = some ts
        exact ih (insertTS n t cache) hnd2 h

/-- C10: in any state of the dedup cache, `_log_plots` sends an image
for a name exactly when the name is new or its timestamp differs from
the cached one; it records the timestamp of everything it processes; and
a second call with the same plots (timestamps unchanged) sends
nothing. -/
theorem C10_dedup (plots cache : List (String × ℕ))
    (hnd : (plots.map Prod.fst).Nodup) :
    (∀ name, name ∈ (_log_plots plots cache).2 ↔
       ∃ ts, (name, ts) ∈ plots ∧ lookupTS name cache ≠ some ts) ∧
    (∀ name ts, (name, ts) ∈ plots →
       lookupTS name (_log_plots plots cache).1 = some ts) ∧
    (_log_plots plots (_log_plots plots cache).1).2 = [] := by
  refine ⟨fun name => log_plots_emits name plots cache hnd,
    fun name ts h => log_plots_cache name ts plots cache hnd h, ?_⟩
  rw [List.eq_nil_iff_forall_not_mem]
  intro name hmem
  rw [log_plots_emits name plots _ hnd] at hmem
  obtain ⟨ts, hts, hne⟩ := hmem
  exact hne (log_plots_cache name ts plots cache hnd hts)

/-- Witness for C10: logging the single plot `("p", 1)` twice in a row
sends nothing the second time. -/
theorem C10_dedup_w :
    (_log_plots [("p", 1)] ((_log_plots [("p", 1)] []).1)).2 = [] :=
  (C10_dedup [("p", 1)] [] (by simp)).2.2
